import Mathlib

/-!
Verification of the SimpleVector container (src/simple-vector/simple_vector.h).

The C++ class `SimpleVector<Type>` owns a contiguous buffer (`ArrayPtr<Type>
data_`), a logical size `size_` and an allocated capacity `capacity_`.  We
embed it shallowly: the buffer is a `List α` whose length is the allocated
length, machine indices are `Nat`, and each member function becomes a pure
Lean function on the record below.  STL algorithms that the source calls
(`std::fill`, `std::copy`, `std::copy_backward`, `std::generate`) are embedded
as index-level functions that perform the same writes in the same order, so
that in-place shifting over an overlapping range is modelled faithfully.

The header includes `array_ptr.h`, which is not in the repository snapshot;
`ArrayPtr` (the owned buffer) is therefore modelled from the spec, see
`ArrayPtr.alloc` and `ArrayPtr.Release`.
-/

namespace SimpleVectorSpec

/-- The owned buffer.  Modelled from the spec: `array_ptr.h` is included by the
header but absent from the snapshot.  Spec §4.1: exclusive ownership of a raw
fixed-length block; we represent the block by the list of its slots (length =
allocated length). -/
structure ArrayPtr (α : Type) where
  raw : List α
deriving DecidableEq, Repr

/-- Modelled from the spec: `Construct(length)` "allocates storage for exactly
`length` default-initialized elements of `T`; `length == 0` is legal".  The
C++ default value `Type {}` is embedded as `default`. -/
def ArrayPtr.alloc (α : Type) [Inhabited α] (length : Nat) : ArrayPtr α :=
  ⟨List.replicate length default⟩

/-- Modelled from the spec: `Release()` "relinquishes ownership of the raw
block to the caller, leaving this buffer empty".  Returns the block together
with the emptied buffer. -/
def ArrayPtr.Release (b : ArrayPtr α) : List α × ArrayPtr α :=
  (b.raw, ⟨[]⟩)

/-- The container: `size_`, `capacity_`, `data_`, as declared in
`simple_vector.h` (lines 253-255). -/
structure SimpleVector (α : Type) where
  size_ : Nat
  capacity_ : Nat
  data_ : ArrayPtr α
deriving DecidableEq, Repr

namespace SimpleVector

variable {α : Type} [Inhabited α]

/-- `SimpleVector() noexcept = default`: `size_ = 0`, `capacity_ = 0`,
default-constructed (empty) buffer. -/
def mkEmpty (α : Type) : SimpleVector α := ⟨0, 0, ⟨[]⟩⟩

/-- `GetSize` (line 63). -/
def GetSize (v : SimpleVector α) : Nat := v.size_

/-- `GetCapacity` (line 68). -/
def GetCapacity (v : SimpleVector α) : Nat := v.capacity_

/-- `IsEmpty` (line 73). -/
def IsEmpty (v : SimpleVector α) : Bool := v.size_ == 0

/-- The logical element sequence: the values in slots `[0, size_)` of the
buffer.  This is the range `[begin(), end())` that the iterators expose. -/
def logicalList (v : SimpleVector α) : List α := v.data_.raw.take v.size_

/-- Representation invariant of the container: the logical size never exceeds
the capacity, and the buffer holds exactly `capacity_` slots. -/
def WF (v : SimpleVector α) : Prop :=
  v.size_ ≤ v.capacity_ ∧ v.data_.raw.length = v.capacity_

instance (v : SimpleVector α) : Decidable (WF v) := by
  unfold WF; infer_instance

/-! ### Embedded STL algorithms

Each function performs the same sequence of slot writes as the STL call in the
source, so overlapping-range behaviour is preserved.  Reads use `List.getD`
with the type's default; all reads performed by the source are in range, which
the lemmas below make explicit. -/

/-- `std::fill(begin(), end(), value)` where the filled range is the whole
buffer (as in the sized constructor, whose buffer has exactly `size` slots). -/
def stdFillAll (b : List α) (value : α) : List α := b.map (fun _ => value)

/-- `std::copy(src.begin(), src.end(), dst.Get() + off)`: writes the elements
of `src` into `dst` starting at slot `off` (caller guarantees
`off + src.length ≤ dst.length`, as in the source). -/
def stdCopyAt (dst : List α) (off : Nat) (src : List α) : List α :=
  dst.take off ++ src ++ dst.drop (off + src.length)

/-- `std::copy_backward(b + first, b + (first+n), b + (first+n+1))`: copies the
range `[first, first+n)` one slot rightward, writing the highest slot first
(exactly the order `std::copy_backward` uses, which is what makes the
overlapping shift correct). -/
def stdCopyBackwardShift (b : List α) (first : Nat) : Nat → List α
  | 0 => b
  | m + 1 =>
      stdCopyBackwardShift (b.set (first + m + 1) (b.getD (first + m) default)) first m

/-- `std::copy(b + (dst+1), b + (dst+1+n), b + dst)`: copies the range
`[dst+1, dst+1+n)` one slot leftward, writing the lowest slot first (the order
`std::copy` uses). -/
def stdCopyForwardShift (b : List α) (dst : Nat) : Nat → List α
  | 0 => b
  | m + 1 =>
      stdCopyForwardShift (b.set dst (b.getD (dst + 1) default)) (dst + 1) m

/-- `std::generate(b + first, b + (first+n), [](){return Type {};})`: writes
the default value into slots `[first, first+n)`. -/
def stdGenerateDefault (b : List α) (first : Nat) : Nat → List α
  | 0 => b
  | m + 1 => stdGenerateDefault (b.set first default) (first + 1) m

/-! ### Constructors and assignment -/

/-- `explicit SimpleVector(ReserveProxyObj reserve)` (line 28): capacity from
the proxy, freshly allocated buffer, `size_` stays `0`. -/
def mkReserve (α : Type) [Inhabited α] (capacity : Nat) : SimpleVector α :=
  ⟨0, capacity, ArrayPtr.alloc α capacity⟩

/-- `SimpleVector(size_t size, const Type& value)` (line 34): `size_ = size`,
`capacity_ = size`, buffer of `size` default slots then
`std::fill(begin(), end(), value)`. -/
def mkSizedVal (n : Nat) (value : α) : SimpleVector α :=
  ⟨n, n, ⟨stdFillAll (ArrayPtr.alloc α n).raw value⟩⟩

/-- `explicit SimpleVector(size_t size)` (line 31): delegates to the
two-argument constructor with `Type {}`. -/
def mkSized (α : Type) [Inhabited α] (n : Nat) : SimpleVector α :=
  mkSizedVal n default

/-- `SimpleVector(std::initializer_list<Type> init)` (line 39): delegates to
`SimpleVector(init.size())`, then `std::copy(init.begin(), init.end(),
begin())`. -/
def mkInitList (xs : List α) : SimpleVector α :=
  let t := mkSized α xs.length
  { t with data_ := ⟨stdCopyAt t.data_.raw 0 xs⟩ }

/-- `this->swap(other)` (line 211): exchanges `size_`, `capacity_` and the
buffers; returns the pair (new this, new other). -/
def swap (a b : SimpleVector α) : SimpleVector α × SimpleVector α :=
  (⟨b.size_, b.capacity_, b.data_⟩, ⟨a.size_, a.capacity_, a.data_⟩)

/-- `SimpleVector(const SimpleVector& other)` (line 43): builds
`SimpleVector temp(other.size_)`, copies `[other.begin(), other.end())` into
`temp.begin()`, then swaps `temp` into `this`. -/
def copyCtor (other : SimpleVector α) : SimpleVector α :=
  let temp := mkSized α other.size_
  let temp := { temp with data_ := ⟨stdCopyAt temp.data_.raw 0 (logicalList other)⟩ }
  (swap (mkEmpty α) temp).1

/-- `SimpleVector(SimpleVector&& other)` (line 49): `data_` takes
`other.data_.Release()`; `size_` and `capacity_` are `std::exchange`d to `0`.
Returns (the new vector, the moved-from source). -/
def moveCtor (other : SimpleVector α) : SimpleVector α × SimpleVector α :=
  let rel := other.data_.Release
  (⟨other.size_, other.capacity_, ⟨rel.1⟩⟩, ⟨0, 0, rel.2⟩)

/-- `operator=(const SimpleVector& rhs)` (line 54): when `this != &rhs`
(modelled by the flag `same` being `false`), builds `SimpleVector temp(rhs)`
and swaps it into `this`; when `this == &rhs` it does nothing.  Returns the
new value of `*this`. -/
def copyAssign (self rhs : SimpleVector α) (same : Bool) : SimpleVector α :=
  if same then self else (swap self (copyCtor rhs)).1

/-- The statement `lhs = std::move(rhs)` for distinct objects.  The class
declares a move constructor and a copy-assignment operator but no
move-assignment operator (and none is implicitly generated because the move
constructor is user-declared), so overload resolution binds the rvalue to
`operator=(const SimpleVector&)`: the statement performs a deep copy and
leaves `rhs` unmodified.  Returns (new lhs, rhs after the statement). -/
def moveAssignStmt (lhs rhs : SimpleVector α) : SimpleVector α × SimpleVector α :=
  (copyAssign lhs rhs false, rhs)

/-! ### Element access -/

/-- `operator[]` (line 78): unchecked read of slot `index` (the source asserts
`index < size_`; out of range is undefined behaviour, embedded as `default`). -/
def getUnchecked (v : SimpleVector α) (index : Nat) : α :=
  v.data_.raw.getD index default

/-- The failure signalled by `At`: `std::out_of_range` carrying the `what()`
message the source passes to the constructor. -/
structure OutOfRangeError where
  msg : String
deriving DecidableEq, Repr

/-- `At(size_t index)` (line 91): throws `std::out_of_range("Выход за пределы
массива")` when `index >= size_`, otherwise returns `*(data_.Get() + index)`. -/
def At (v : SimpleVector α) (index : Nat) : Except OutOfRangeError α :=
  if index ≥ v.size_ then
    Except.error ⟨"Выход за пределы массива"⟩
  else
    Except.ok (v.data_.raw.getD index default)

/-! ### Capacity management -/

/-- `Clear()` (line 108): `size_ = 0`, everything else untouched. -/
def Clear (v : SimpleVector α) : SimpleVector α := { v with size_ := 0 }

/-- `IncreaseCapacity(new_capacity)` (line 257, private): allocates a fresh
buffer of `new_capacity` slots, moves `[begin(), end())` to its front, swaps
it in, sets `capacity_`. -/
def IncreaseCapacity (v : SimpleVector α) (new_capacity : Nat) : SimpleVector α :=
  ⟨v.size_, new_capacity, ⟨stdCopyAt (ArrayPtr.alloc α new_capacity).raw 0 (logicalList v)⟩⟩

/-- `Resize(new_size)` (line 114): three cases exactly as in the source. -/
def Resize (v : SimpleVector α) (new_size : Nat) : SimpleVector α :=
  if new_size ≤ v.size_ then
    { v with size_ := new_size }
  else if new_size ≤ v.capacity_ then
    { v with
      size_ := new_size
      data_ := ⟨stdGenerateDefault v.data_.raw v.size_ (new_size - v.size_)⟩ }
  else
    { IncreaseCapacity v (max new_size (v.capacity_ * 2)) with size_ := new_size }

/-- `Reserve(new_capacity)` (line 128): grow through `IncreaseCapacity` only
when `new_capacity > capacity_`. -/
def Reserve (v : SimpleVector α) (new_capacity : Nat) : SimpleVector α :=
  if new_capacity > v.capacity_ then IncreaseCapacity v new_capacity else v

/-! ### Mutation -/

/-- `PushBack` (line 136; the rvalue overload at line 145 performs the same
writes): grow when `size_ >= capacity_` to `max(size_ + 1, capacity_ * 2)`,
then write `item` into slot `size_` and increment `size_`. -/
def PushBack (v : SimpleVector α) (item : α) : SimpleVector α :=
  let v := if v.size_ ≥ v.capacity_ then
             IncreaseCapacity v (max (v.size_ + 1) (v.capacity_ * 2))
           else v
  { v with size_ := v.size_ + 1, data_ := ⟨v.data_.raw.set v.size_ item⟩ }

/-- `PopBack()` (line 155): decrements `size_` (the source asserts
`size_ > 0`). -/
def PopBack (v : SimpleVector α) : SimpleVector α := { v with size_ := v.size_ - 1 }

/-- `Insert(ConstIterator pos, const Type& value)` (line 164; the rvalue
overload at line 183 performs the same writes).  `index = pos - begin()`
(the source asserts `begin() <= pos <= end()`, i.e. `index ≤ size_`).  With
headroom, `std::copy_backward` shifts `[index, size_)` one slot rightward into
`[index+1, size_+1)` and `value` is written at `index`; otherwise a buffer of
`max(size_+1, capacity_*2)` slots is filled as in the source.  Returns the new
vector and the offset of the returned iterator `&data_[index]`. -/
def Insert (v : SimpleVector α) (index : Nat) (value : α) : SimpleVector α × Nat :=
  if v.size_ < v.capacity_ then
    let b := stdCopyBackwardShift v.data_.raw index (v.size_ - index)
    (⟨v.size_ + 1, v.capacity_, ⟨b.set index value⟩⟩, index)
  else
    let new_capacity := max (v.size_ + 1) (v.capacity_ * 2)
    let nb := (ArrayPtr.alloc α new_capacity).raw
    let nb := stdCopyAt nb 0 ((logicalList v).take index)
    let nb := nb.set index value
    let nb := stdCopyAt nb (index + 1) ((logicalList v).drop index)
    (⟨v.size_ + 1, new_capacity, ⟨nb⟩⟩, index)

/-- `Erase(ConstIterator pos)` (line 203).  `index = pos - begin()` (the
source asserts `begin() <= pos < end()`, i.e. `index < size_`).  `std::copy`
shifts `[index+1, size_)` one slot leftward into `[index, size_-1)`, `size_`
is decremented.  Returns the new vector and the offset of the returned
iterator `&data_[index]`. -/
def Erase (v : SimpleVector α) (index : Nat) : SimpleVector α × Nat :=
  (⟨v.size_ - 1, v.capacity_,
    ⟨stdCopyForwardShift v.data_.raw index (v.size_ - index - 1)⟩⟩, index)

/-- `operator==` (line 266): sizes equal and `std::equal(lhs.begin(),
lhs.end(), rhs.begin())`. -/
def eqOp [DecidableEq α] (lhs rhs : SimpleVector α) : Bool :=
  if lhs.size_ ≠ rhs.size_ then false
  else decide (logicalList lhs = rhs.data_.raw.take lhs.size_)

/-- Sequential `PushBack` of every element of `xs`, in order. -/
def pushMany (v : SimpleVector α) (xs : List α) : SimpleVector α :=
  xs.foldl PushBack v

end SimpleVector

/-! ## Lemmas about `List.getD` -/

theorem getD_take_eq_if {α : Type} (l : List α) (n j : Nat) (d : α) :
    (l.take n).getD j d = if j < n then l.getD j d else d := by
  simp only [List.getD, List.get?_eq_getElem?, List.getElem?_take]
  split <;> rfl

theorem getD_append_eq_if {α : Type} (l m : List α) (j : Nat) (d : α) :
    (l ++ m).getD j d = if j < l.length then l.getD j d else m.getD (j - l.length) d := by
  simp only [List.getD, List.get?_eq_getElem?, List.getElem?_append]
  split <;> rfl

theorem getD_drop_eq {α : Type} (l : List α) (n j : Nat) (d : α) :
    (l.drop n).getD j d = l.getD (n + j) d := by
  simp only [List.getD, List.get?_eq_getElem?, List.getElem?_drop]

theorem getD_replicate_eq_if {α : Type} (n j : Nat) (v d : α) :
    (List.replicate n v).getD j d = if j < n then v else d := by
  simp only [List.getD, List.get?_eq_getElem?, List.getElem?_replicate]
  split <;> rfl

theorem getD_set_self {α : Type} (l : List α) (i : Nat) (v d : α) (h : i < l.length) :
    (l.set i v).getD i d = v := by
  simp [List.getD, List.getElem?_set_self, h]

theorem getD_set_ne {α : Type} (l : List α) (i j : Nat) (v d : α) (h : i ≠ j) :
    (l.set i v).getD j d = l.getD j d := by
  simp [List.getD, List.getElem?_set_ne h]

theorem getD_eq_default_of_le {α : Type} (l : List α) (i : Nat) (d : α) (h : l.length ≤ i) :
    l.getD i d = d :=
  List.getD_eq_default l d h

theorem ext_getD {α : Type} (l₁ l₂ : List α) (d : α) (hlen : l₁.length = l₂.length)
    (h : ∀ j, j < l₁.length → l₁.getD j d = l₂.getD j d) : l₁ = l₂ := by
  refine List.ext_getElem hlen (fun i h1 h2 => ?_)
  have := h i h1
  rwa [List.getD_eq_getElem l₁ d h1, List.getD_eq_getElem l₂ d h2] at this

namespace SimpleVector

variable {α : Type} [Inhabited α]

/-! ## Characterizations of the embedded STL algorithms -/

theorem length_stdCopyBackwardShift (b : List α) (first n : Nat) :
    (stdCopyBackwardShift b first n).length = b.length := by
  induction n generalizing b with
  | zero => rfl
  | succ m ih => simp [stdCopyBackwardShift, ih]

/-- What the backward shift computes: slots `[first+1, first+n]` receive the
old values of slots `[first, first+n)`, every other slot is untouched.  The
hypothesis `first + n < b.length` is the source's guarantee that the highest
written slot exists (in `Insert`, `first + n = size_ < capacity_`). -/
theorem getD_stdCopyBackwardShift (b : List α) (first n : Nat)
    (hn : first + n < b.length) (j : Nat) :
    (stdCopyBackwardShift b first n).getD j default =
      if first + 1 ≤ j ∧ j ≤ first + n then b.getD (j - 1) default
      else b.getD j default := by
  induction n generalizing b with
  | zero =>
      have : ¬(first + 1 ≤ j ∧ j ≤ first + 0) := by omega
      simp only [stdCopyBackwardShift, if_neg this]
  | succ m ih =>
      simp only [stdCopyBackwardShift]
      have hlen : (b.set (first + m + 1) (b.getD (first + m) default)).length = b.length := by
        simp
      rw [ih _ (by rw [hlen]; omega)]
      by_cases hj1 : first + 1 ≤ j ∧ j ≤ first + m
      · have hne : first + m + 1 ≠ j - 1 := by omega
        have : first + 1 ≤ j ∧ j ≤ first + (m + 1) := by omega
        simp only [if_pos hj1, if_pos this]
        exact getD_set_ne _ _ _ _ _ hne
      · by_cases hj2 : j = first + m + 1
        · have hc : first + 1 ≤ j ∧ j ≤ first + (m + 1) := by omega
          simp only [if_neg hj1, if_pos hc]
          rw [hj2, getD_set_self b (first + m + 1) (b.getD (first + m) default) default (by omega)]
          congr 1
        · have : ¬(first + 1 ≤ j ∧ j ≤ first + (m + 1)) := by omega
          simp only [if_neg hj1, if_neg this]
          exact getD_set_ne _ _ _ _ _ (by omega)

theorem length_stdCopyForwardShift (b : List α) (dst n : Nat) :
    (stdCopyForwardShift b dst n).length = b.length := by
  induction n generalizing b dst with
  | zero => rfl
  | succ m ih => simp [stdCopyForwardShift, ih]

/-- What the forward shift computes: slots `[dst, dst+n)` receive the old
values of slots `[dst+1, dst+n]`, every other slot is untouched. -/
theorem getD_stdCopyForwardShift (b : List α) (dst n : Nat) (j : Nat) :
    (stdCopyForwardShift b dst n).getD j default =
      if dst ≤ j ∧ j < dst + n then b.getD (j + 1) default
      else b.getD j default := by
  induction n generalizing b dst with
  | zero =>
      have : ¬(dst ≤ j ∧ j < dst + 0) := by omega
      simp only [stdCopyForwardShift, if_neg this]
  | succ m ih =>
      simp only [stdCopyForwardShift]
      rw [ih]
      by_cases hj1 : dst + 1 ≤ j ∧ j < dst + 1 + m
      · have : dst ≤ j ∧ j < dst + (m + 1) := by omega
        simp only [if_pos hj1, if_pos this]
        exact getD_set_ne _ _ _ _ _ (by omega)
      · by_cases hj2 : j = dst
        · have hc : dst ≤ j ∧ j < dst + (m + 1) := by omega
          simp only [if_neg hj1, if_pos hc]
          rw [hj2]
          by_cases hd : dst < b.length
          · exact getD_set_self b dst _ default hd
          · rw [List.set_eq_of_length_le (by omega)]
            rw [getD_eq_default_of_le _ _ _ (by omega),
                getD_eq_default_of_le _ _ _ (by omega)]
        · have : ¬(dst ≤ j ∧ j < dst + (m + 1)) := by omega
          simp only [if_neg hj1, if_neg this]
          exact getD_set_ne _ _ _ _ _ (by omega)

theorem length_stdGenerateDefault (b : List α) (first n : Nat) :
    (stdGenerateDefault b first n).length = b.length := by
  induction n generalizing b first with
  | zero => rfl
  | succ m ih => simp [stdGenerateDefault, ih]

/-- What `std::generate` with the default generator computes: slots
`[first, first+n)` become the default value, every other slot is untouched. -/
theorem getD_stdGenerateDefault (b : List α) (first n : Nat) (j : Nat) :
    (stdGenerateDefault b first n).getD j default =
      if first ≤ j ∧ j < first + n then default
      else b.getD j default := by
  induction n generalizing b first with
  | zero =>
      have : ¬(first ≤ j ∧ j < first + 0) := by omega
      simp only [stdGenerateDefault, if_neg this]
  | succ m ih =>
      simp only [stdGenerateDefault]
      rw [ih]
      by_cases hj1 : first + 1 ≤ j ∧ j < first + 1 + m
      · have : first ≤ j ∧ j < first + (m + 1) := by omega
        simp only [if_pos hj1, if_pos this]
      · by_cases hj2 : j = first
        · have hc : first ≤ j ∧ j < first + (m + 1) := by omega
          simp only [if_neg hj1, if_pos hc]
          rw [hj2]
          by_cases hd : first < b.length
          · exact getD_set_self b first _ default hd
          · rw [List.set_eq_of_length_le (by omega)]
            exact getD_eq_default_of_le _ _ _ (by omega)
        · have : ¬(first ≤ j ∧ j < first + (m + 1)) := by omega
          simp only [if_neg hj1, if_neg this]
          exact getD_set_ne _ _ _ _ _ (by omega)

omit [Inhabited α] in
theorem length_stdCopyAt (dst src : List α) (off : Nat)
    (h : off + src.length ≤ dst.length) :
    (stdCopyAt dst off src).length = dst.length := by
  simp only [stdCopyAt, List.length_append, List.length_take, List.length_drop]
  omega

/-! ## Basic facts about the logical sequence -/

theorem length_logicalList (v : SimpleVector α) (h : v.size_ ≤ v.data_.raw.length) :
    (logicalList v).length = v.size_ := by
  simp only [logicalList, List.length_take]
  omega

theorem getD_logicalList (v : SimpleVector α) (j : Nat) (h : j < v.size_) :
    (logicalList v).getD j default = v.data_.raw.getD j default := by
  simp [logicalList, getD_take_eq_if, h]

/-! ## Constructors -/

theorem mkSizedVal_data (n : Nat) (value : α) :
    (mkSizedVal n value).data_.raw = List.replicate n value := by
  simp [mkSizedVal, stdFillAll, ArrayPtr.alloc, List.map_const]

theorem WF_mkEmpty : WF (mkEmpty α) := by
  constructor <;> simp [mkEmpty, WF]

theorem WF_mkReserve (c : Nat) : WF (mkReserve α c) := by
  constructor <;> simp [mkReserve, ArrayPtr.alloc]

theorem WF_mkSizedVal (n : Nat) (value : α) : WF (mkSizedVal n value) := by
  constructor
  · simp [mkSizedVal]
  · rw [show (mkSizedVal n value).data_.raw = List.replicate n value from mkSizedVal_data n value]
    simp [mkSizedVal]

theorem logicalList_mkSizedVal (n : Nat) (value : α) :
    logicalList (mkSizedVal n value) = List.replicate n value := by
  show ((mkSizedVal n value).data_.raw).take (mkSizedVal n value).size_ = _
  rw [mkSizedVal_data]
  simp [mkSizedVal]

theorem WF_mkInitList (xs : List α) : WF (mkInitList xs) := by
  constructor
  · simp [mkInitList, mkSized, mkSizedVal]
  · simp [mkInitList, mkSized, mkSizedVal, stdCopyAt, stdFillAll, ArrayPtr.alloc]

theorem logicalList_mkInitList (xs : List α) : logicalList (mkInitList xs) = xs := by
  simp [mkInitList, mkSized, logicalList, mkSizedVal, stdCopyAt, stdFillAll, ArrayPtr.alloc,
    List.take_append_eq_append_take, List.length_map]

/-! ## `IncreaseCapacity` -/

theorem IncreaseCapacity_data (v : SimpleVector α) (nc : Nat) :
    (IncreaseCapacity v nc).data_.raw =
      logicalList v ++ List.replicate (nc - (logicalList v).length) default := by
  simp [IncreaseCapacity, stdCopyAt, ArrayPtr.alloc, List.drop_replicate]

theorem IncreaseCapacity_size (v : SimpleVector α) (nc : Nat) :
    (IncreaseCapacity v nc).size_ = v.size_ := rfl

theorem IncreaseCapacity_capacity (v : SimpleVector α) (nc : Nat) :
    (IncreaseCapacity v nc).capacity_ = nc := rfl

theorem WF_IncreaseCapacity (v : SimpleVector α) (nc : Nat) (hWF : WF v)
    (h : v.size_ ≤ nc) : WF (IncreaseCapacity v nc) := by
  obtain ⟨h1, h2⟩ := hWF
  constructor
  · exact h
  · rw [IncreaseCapacity_data]
    simp only [IncreaseCapacity_capacity, List.length_append, List.length_replicate]
    rw [length_logicalList v (by omega)]
    omega

theorem logicalList_IncreaseCapacity (v : SimpleVector α) (nc : Nat) (hWF : WF v) :
    logicalList (IncreaseCapacity v nc) = logicalList v := by
  obtain ⟨h1, h2⟩ := hWF
  have hlen : (logicalList v).length = v.size_ := length_logicalList v (by omega)
  show ((IncreaseCapacity v nc).data_.raw).take (IncreaseCapacity v nc).size_ = _
  rw [IncreaseCapacity_data, IncreaseCapacity_size]
  rw [List.take_append_of_le_length (by omega)]
  rw [List.take_of_length_le (by omega)]

/-! ## The copy constructor -/

theorem copyCtor_size (v : SimpleVector α) : (copyCtor v).size_ = v.size_ := rfl

theorem copyCtor_capacity (v : SimpleVector α) : (copyCtor v).capacity_ = v.size_ := rfl

theorem copyCtor_data (v : SimpleVector α) (hWF : WF v) :
    (copyCtor v).data_.raw = logicalList v := by
  obtain ⟨h1, h2⟩ := hWF
  show stdCopyAt (mkSized α v.size_).data_.raw 0 (logicalList v) = logicalList v
  have hlen : (logicalList v).length = v.size_ := length_logicalList v (by omega)
  simp only [mkSized, mkSizedVal_data, stdCopyAt, List.take_zero, Nat.zero_add, hlen,
    List.drop_replicate, List.nil_append]
  simp

theorem logicalList_copyCtor (v : SimpleVector α) (hWF : WF v) :
    logicalList (copyCtor v) = logicalList v := by
  have hlen : (logicalList v).length = v.size_ :=
    length_logicalList v (by rw [hWF.2]; exact hWF.1)
  show ((copyCtor v).data_.raw).take (copyCtor v).size_ = _
  rw [copyCtor_data v hWF, copyCtor_size]
  exact List.take_of_length_le (le_of_eq hlen)

theorem WF_copyCtor (v : SimpleVector α) (hWF : WF v) : WF (copyCtor v) := by
  constructor
  · simp [copyCtor_size, copyCtor_capacity]
  · rw [copyCtor_data v hWF, copyCtor_capacity, length_logicalList v]
    exact hWF.2 ▸ hWF.1

end SimpleVector

/-- Taking `n+1` slots after writing `x` into slot `n` yields the first `n`
slots followed by `x`. -/
theorem take_succ_set {α : Type} (l : List α) (n : Nat) (x : α) (h : n < l.length) :
    (l.set n x).take (n + 1) = l.take n ++ [x] := by
  apply ext_getD _ _ x
  · simp; omega
  · intro j hj
    have hlen : (l.take n).length = n := by simp; omega
    rw [getD_take_eq_if, getD_append_eq_if, hlen]
    simp only [List.length_take, List.length_set] at hj
    by_cases hjn : j < n
    · rw [if_pos (by omega), if_pos hjn, getD_set_ne _ _ _ _ _ (by omega),
        getD_take_eq_if, if_pos hjn]
    · have hje : j = n := by omega
      subst hje
      rw [if_pos (by omega), if_neg (by omega), getD_set_self l j x x (by omega)]
      simp

namespace SimpleVector

variable {α : Type} [Inhabited α]

/-! ## `PushBack` -/

theorem PushBack_size (v : SimpleVector α) (x : α) :
    (PushBack v x).size_ = v.size_ + 1 := by
  simp only [PushBack]
  split <;> rfl

theorem PushBack_capacity_grow (v : SimpleVector α) (x : α) (h : v.capacity_ ≤ v.size_) :
    (PushBack v x).capacity_ = max (v.size_ + 1) (v.capacity_ * 2) := by
  simp only [PushBack, if_pos h]
  rfl

theorem PushBack_capacity_headroom (v : SimpleVector α) (x : α) (h : v.size_ < v.capacity_) :
    (PushBack v x).capacity_ = v.capacity_ := by
  simp only [PushBack, if_neg (by omega : ¬ v.size_ ≥ v.capacity_)]

theorem PushBack_data (v : SimpleVector α) (x : α) :
    (PushBack v x).data_.raw =
      (if v.size_ ≥ v.capacity_ then
        IncreaseCapacity v (max (v.size_ + 1) (v.capacity_ * 2))
       else v).data_.raw.set v.size_ x := by
  simp only [PushBack]
  split <;> rfl

theorem logicalList_PushBack (v : SimpleVector α) (x : α) (hWF : WF v) :
    logicalList (PushBack v x) = logicalList v ++ [x] := by
  obtain ⟨h1, h2⟩ := hWF
  have hlen : (logicalList v).length = v.size_ := length_logicalList v (by omega)
  show ((PushBack v x).data_.raw).take (PushBack v x).size_ = _
  rw [PushBack_data, PushBack_size]
  by_cases hg : v.size_ ≥ v.capacity_
  · rw [if_pos hg, IncreaseCapacity_data]
    have hL : (logicalList v ++
        List.replicate (max (v.size_ + 1) (v.capacity_ * 2) - (logicalList v).length)
          default).length = max (v.size_ + 1) (v.capacity_ * 2) := by
      simp [hlen]
    rw [take_succ_set _ _ _ (by rw [hL]; omega)]
    rw [List.take_append_of_le_length (by omega), List.take_of_length_le (le_of_eq hlen)]
  · rw [if_neg hg]
    rw [take_succ_set _ _ _ (by omega)]
    rfl

theorem WF_PushBack (v : SimpleVector α) (x : α) (hWF : WF v) : WF (PushBack v x) := by
  obtain ⟨h1, h2⟩ := hWF
  constructor
  · rw [PushBack_size]
    by_cases hg : v.size_ ≥ v.capacity_
    · rw [PushBack_capacity_grow v x hg]; omega
    · rw [PushBack_capacity_headroom v x (by omega)]; omega
  · rw [PushBack_data, List.length_set]
    by_cases hg : v.size_ ≥ v.capacity_
    · rw [if_pos hg, IncreaseCapacity_data]
      have hlen : (logicalList v).length = v.size_ := length_logicalList v (by omega)
      rw [PushBack_capacity_grow v x hg]
      simp only [List.length_append, List.length_replicate, hlen]
      omega
    · rw [if_neg hg, PushBack_capacity_headroom v x (by omega)]
      exact h2

theorem pushMany_append_singleton (v : SimpleVector α) (xs : List α) (x : α) :
    pushMany v (xs ++ [x]) = PushBack (pushMany v xs) x := by
  simp [pushMany, List.foldl_append]

/-- Invariant of the doubling growth sequence: pushing the elements of `xs`
one by one onto the default-constructed vector yields size `xs.length`, the
elements of `xs` in order, and a capacity that is `0` for no pushes and
otherwise the least power of two at least the size. -/
theorem pushMany_mkEmpty_spec (xs : List α) :
    WF (pushMany (mkEmpty α) xs) ∧
    (pushMany (mkEmpty α) xs).size_ = xs.length ∧
    logicalList (pushMany (mkEmpty α) xs) = xs ∧
    (xs = [] → (pushMany (mkEmpty α) xs).capacity_ = 0) ∧
    (xs ≠ [] → ∃ j, (pushMany (mkEmpty α) xs).capacity_ = 2 ^ j ∧
        xs.length ≤ 2 ^ j ∧ 2 ^ j < 2 * xs.length) := by
  induction xs using List.reverseRecOn with
  | nil =>
      refine ⟨WF_mkEmpty, rfl, rfl, fun _ => rfl, fun h => absurd rfl h⟩
  | append_singleton xs x ih =>
      obtain ⟨ihWF, ihsize, ihlog, ihcap0, ihcap⟩ := ih
      rw [pushMany_append_singleton]
      set w := pushMany (mkEmpty α) xs with hw
      refine ⟨WF_PushBack w x ihWF, ?_, ?_, ?_, ?_⟩
      · rw [PushBack_size, ihsize]; simp
      · rw [logicalList_PushBack w x ihWF, ihlog]
      · intro h
        exact absurd h (by simp)
      · intro _
        by_cases hnil : xs = []
        · have hc : w.capacity_ = 0 := ihcap0 hnil
          have hs : w.size_ = 0 := by rw [ihsize, hnil]; rfl
          refine ⟨0, ?_, by simp [hnil], by simp [hnil]⟩
          rw [PushBack_capacity_grow w x (by omega), hs, hc]
          decide
        · obtain ⟨j, hcap, hle, hlt⟩ := ihcap hnil
          have hk1 : 1 ≤ xs.length := List.length_pos.mpr hnil
          by_cases hfull : xs.length = 2 ^ j
          · refine ⟨j + 1, ?_, ?_, ?_⟩
            · rw [PushBack_capacity_grow w x (by omega), ihsize, hcap, hfull, pow_succ]
              omega
            · rw [pow_succ]
              simp only [List.length_append, List.length_cons, List.length_nil]
              omega
            · rw [pow_succ]
              simp only [List.length_append, List.length_cons, List.length_nil]
              omega
          · have hlt2 : xs.length < 2 ^ j := by omega
            refine ⟨j, ?_, ?_, ?_⟩
            · rw [PushBack_capacity_headroom w x (by omega), hcap]
            · simp only [List.length_append, List.length_cons, List.length_nil]
              omega
            · simp only [List.length_append, List.length_cons, List.length_nil]
              omega


/-! ## `Insert` -/

theorem Insert_size (v : SimpleVector α) (i : Nat) (x : α) :
    (Insert v i x).1.size_ = v.size_ + 1 := by
  simp only [Insert]
  split <;> rfl

theorem Insert_ret (v : SimpleVector α) (i : Nat) (x : α) :
    (Insert v i x).2 = i := by
  simp only [Insert]
  split <;> rfl

theorem Insert_capacity_headroom (v : SimpleVector α) (i : Nat) (x : α)
    (h : v.size_ < v.capacity_) : (Insert v i x).1.capacity_ = v.capacity_ := by
  simp only [Insert, if_pos h]

theorem Insert_capacity_full (v : SimpleVector α) (i : Nat) (x : α)
    (h : ¬ v.size_ < v.capacity_) :
    (Insert v i x).1.capacity_ = max (v.size_ + 1) (v.capacity_ * 2) := by
  simp only [Insert, if_neg h]

/-- The headroom branch of `Insert` at buffer level: after the backward shift
and the write of `x` at slot `i`, the first `size+1` slots are the old first
`i` slots, then `x`, then the old slots `[i, size)`. -/
theorem insert_shift_take (raw : List α) (size i : Nat) (x : α)
    (hi : i ≤ size) (hs : size < raw.length) :
    ((stdCopyBackwardShift raw i (size - i)).set i x).take (size + 1) =
      (raw.take size).take i ++ x :: (raw.take size).drop i := by
  apply ext_getD _ _ default
  · simp [length_stdCopyBackwardShift]
    omega
  · intro j hj
    simp only [List.length_take, List.length_set, length_stdCopyBackwardShift] at hj
    have hleni : ((raw.take size).take i).length = i := by simp; omega
    rw [getD_take_eq_if, if_pos (by omega), getD_append_eq_if, hleni]
    by_cases hji : j < i
    · rw [if_pos hji, getD_set_ne _ _ _ _ _ (by omega),
        getD_stdCopyBackwardShift _ _ _ (by omega), if_neg (by omega),
        getD_take_eq_if, if_pos hji, getD_take_eq_if, if_pos (by omega)]
    · by_cases hjeq : j = i
      · subst hjeq
        rw [if_neg (by omega),
          getD_set_self _ _ _ _ (by rw [length_stdCopyBackwardShift]; omega)]
        simp
      · rw [if_neg (by omega), getD_set_ne _ _ _ _ _ (by omega),
          getD_stdCopyBackwardShift _ _ _ (by omega), if_pos (by omega)]
        have hsub : j - i = (j - i - 1) + 1 := by omega
        rw [hsub, List.getD_cons_succ, getD_drop_eq, getD_take_eq_if, if_pos (by omega)]
        congr 1
        omega

omit [Inhabited α] in
theorem stdCopyAt_eq_append (dst src : List α) (off : Nat) :
    stdCopyAt dst off src = dst.take off ++ src ++ dst.drop (off + src.length) := rfl

/-- The reallocating branch of `Insert` at buffer level: the fresh buffer
receives the old first `i` elements, `x` at slot `i`, then the old elements
`[i, len)` starting at slot `i+1`. -/
theorem insert_realloc_take (l : List α) (i : Nat) (x : α) (nc : Nat)
    (hi : i ≤ l.length) (hnc : l.length + 1 ≤ nc) :
    (stdCopyAt ((stdCopyAt (List.replicate nc (default : α)) 0 (l.take i)).set i x)
        (i + 1) (l.drop i)).take (l.length + 1) =
      l.take i ++ x :: l.drop i := by
  have hli : (l.take i).length = i := by simp; omega
  have hlen1 : (stdCopyAt (List.replicate nc (default : α)) 0 (l.take i)).length = nc := by
    rw [length_stdCopyAt]
    · simp
    · simp
      omega
  have hlen2 : ((stdCopyAt (List.replicate nc (default : α)) 0 (l.take i)).set i x).length
      = nc := by rw [List.length_set, hlen1]
  have hlen3 : (stdCopyAt ((stdCopyAt (List.replicate nc (default : α)) 0 (l.take i)).set
      i x) (i + 1) (l.drop i)).length = nc := by
    rw [length_stdCopyAt]
    rw [hlen2]
    simp
    omega
  have htk : ((((stdCopyAt (List.replicate nc (default : α)) 0 (l.take i)).set
      i x)).take (i + 1)).length = i + 1 := by
    rw [List.length_take, hlen2]
    omega
  apply ext_getD _ _ default
  · rw [List.length_take, hlen3]
    simp
    omega
  · intro j hj
    rw [List.length_take, hlen3] at hj
    have hj1 : j < l.length + 1 := by omega
    rw [getD_take_eq_if, if_pos hj1, getD_append_eq_if, hli]
    rw [stdCopyAt_eq_append ((stdCopyAt (List.replicate nc (default : α)) 0
      (l.take i)).set i x) (l.drop i) (i + 1)]
    have hAB : ((((stdCopyAt (List.replicate nc (default : α)) 0 (l.take i)).set
        i x).take (i + 1)) ++ l.drop i).length = l.length + 1 := by
      rw [List.length_append, htk]
      simp
      omega
    rw [getD_append_eq_if, hAB, if_pos hj1, getD_append_eq_if, htk]
    by_cases hji : j < i
    · rw [if_pos hji, if_pos (show j < i + 1 by omega), getD_take_eq_if,
        if_pos (show j < i + 1 by omega), getD_set_ne _ _ _ _ _ (by omega)]
      simp only [stdCopyAt, List.take_zero, List.nil_append]
      rw [getD_append_eq_if, hli, if_pos hji]
    · by_cases hjeq : j = i
      · subst hjeq
        rw [if_neg (show ¬ j < j by omega), if_pos (show j < j + 1 by omega),
          getD_take_eq_if, if_pos (show j < j + 1 by omega),
          getD_set_self _ _ _ _ (by rw [hlen1]; omega)]
        simp
      · rw [if_neg (show ¬ j < i by omega), if_neg (show ¬ j < i + 1 by omega)]
        have hsub : j - i = (j - i - 1) + 1 := by omega
        rw [hsub, List.getD_cons_succ]
        have hsub2 : j - (i + 1) = j - i - 1 := by omega
        rw [hsub2]

theorem logicalList_Insert (v : SimpleVector α) (i : Nat) (x : α) (hWF : WF v)
    (hi : i ≤ v.size_) :
    logicalList (Insert v i x).1 =
      (logicalList v).take i ++ x :: (logicalList v).drop i := by
  obtain ⟨h1, h2⟩ := hWF
  have hlen : (logicalList v).length = v.size_ := length_logicalList v (by omega)
  by_cases hg : v.size_ < v.capacity_
  · simp only [Insert, if_pos hg, logicalList]
    exact insert_shift_take v.data_.raw v.size_ i x hi (by omega)
  · simp only [Insert, if_neg hg, logicalList, ArrayPtr.alloc]
    have hmain := insert_realloc_take (logicalList v) i x
      (max (v.size_ + 1) (v.capacity_ * 2)) (by omega) (by rw [hlen]; omega)
    rw [hlen] at hmain
    exact hmain

theorem WF_Insert (v : SimpleVector α) (i : Nat) (x : α) (hWF : WF v)
    (hi : i ≤ v.size_) : WF (Insert v i x).1 := by
  obtain ⟨h1, h2⟩ := hWF
  have hlen : (logicalList v).length = v.size_ := length_logicalList v (by omega)
  by_cases hg : v.size_ < v.capacity_
  · constructor
    · rw [Insert_size, Insert_capacity_headroom v i x hg]
      omega
    · rw [Insert_capacity_headroom v i x hg]
      simp only [Insert, if_pos hg]
      simp [length_stdCopyBackwardShift, h2]
  · constructor
    · rw [Insert_size, Insert_capacity_full v i x hg]
      omega
    · rw [Insert_capacity_full v i x hg]
      simp only [Insert, if_neg hg]
      show (stdCopyAt ((stdCopyAt (ArrayPtr.alloc α _).raw 0 _).set i x)
        (i + 1) _).length = _
      rw [length_stdCopyAt]
      · rw [List.length_set, length_stdCopyAt]
        · simp [ArrayPtr.alloc]
        · simp [ArrayPtr.alloc]
          omega
      · rw [List.length_set, length_stdCopyAt]
        · simp [ArrayPtr.alloc, hlen]
          omega
        · simp [ArrayPtr.alloc]
          omega

/-- In the headroom branch of `Insert`, every buffer slot strictly beyond the
old logical end (slots `(size_, capacity_)`) is untouched: among the spare
slots the shift writes exactly into the one newly available slot `size_`. -/
theorem Insert_tail_slots (v : SimpleVector α) (i : Nat) (x : α)
    (hWF : WF v) (hi : i ≤ v.size_) (hg : v.size_ < v.capacity_) (j : Nat)
    (hj : v.size_ < j) :
    (Insert v i x).1.data_.raw.getD j default = v.data_.raw.getD j default := by
  obtain ⟨h1, h2⟩ := hWF
  simp only [Insert, if_pos hg]
  rcases Nat.lt_or_ge j v.data_.raw.length with hjl | hjl
  · rw [getD_set_ne _ _ _ _ _ (by omega),
      getD_stdCopyBackwardShift _ _ _ (by omega), if_neg (by omega)]
  · rw [getD_eq_default_of_le _ _ _ (by simp [length_stdCopyBackwardShift]; omega),
      getD_eq_default_of_le _ _ _ (by omega)]

/-! ## `Erase` -/

theorem Erase_size (v : SimpleVector α) (i : Nat) :
    (Erase v i).1.size_ = v.size_ - 1 := rfl

theorem Erase_capacity (v : SimpleVector α) (i : Nat) :
    (Erase v i).1.capacity_ = v.capacity_ := rfl

theorem Erase_ret (v : SimpleVector α) (i : Nat) : (Erase v i).2 = i := rfl

/-- The forward shift of `Erase` at buffer level: the first `size-1` slots
after the shift are the old slots `[0, i)` followed by the old slots
`[i+1, size)`. -/
theorem erase_shift_take (raw : List α) (size i : Nat)
    (hi : i < size) (hs : size ≤ raw.length) :
    (stdCopyForwardShift raw i (size - i - 1)).take (size - 1) =
      (raw.take size).take i ++ (raw.take size).drop (i + 1) := by
  apply ext_getD _ _ default
  · simp [length_stdCopyForwardShift]
    omega
  · intro j hj
    simp only [List.length_take, length_stdCopyForwardShift] at hj
    have hleni : ((raw.take size).take i).length = i := by simp; omega
    rw [getD_take_eq_if, if_pos (by omega), getD_append_eq_if, hleni,
      getD_stdCopyForwardShift]
    by_cases hji : j < i
    · rw [if_neg (by omega), if_pos hji, getD_take_eq_if, if_pos hji,
        getD_take_eq_if, if_pos (by omega)]
    · rw [if_pos (by omega), if_neg (by omega), getD_drop_eq, getD_take_eq_if,
        if_pos (by omega)]
      congr 1
      omega

theorem logicalList_Erase (v : SimpleVector α) (i : Nat) (hWF : WF v)
    (hi : i < v.size_) :
    logicalList (Erase v i).1 =
      (logicalList v).take i ++ (logicalList v).drop (i + 1) := by
  obtain ⟨h1, h2⟩ := hWF
  simp only [Erase, logicalList]
  exact erase_shift_take v.data_.raw v.size_ i hi (by omega)

theorem WF_Erase (v : SimpleVector α) (i : Nat) (hWF : WF v) : WF (Erase v i).1 := by
  obtain ⟨h1, h2⟩ := hWF
  constructor
  · rw [Erase_size, Erase_capacity]
    omega
  · rw [Erase_capacity]
    simp only [Erase]
    rw [length_stdCopyForwardShift]
    exact h2

/-! ## `Resize` -/

theorem Resize_shrink (v : SimpleVector α) (n : Nat) (h : n ≤ v.size_) :
    Resize v n = { v with size_ := n } := by
  simp [Resize, if_pos h]

theorem Resize_inplace_size (v : SimpleVector α) (n : Nat) (h1 : ¬ n ≤ v.size_)
    (h2 : n ≤ v.capacity_) : (Resize v n).size_ = n := by
  simp [Resize, if_neg h1, if_pos h2]

theorem Resize_inplace_capacity (v : SimpleVector α) (n : Nat) (h1 : ¬ n ≤ v.size_)
    (h2 : n ≤ v.capacity_) : (Resize v n).capacity_ = v.capacity_ := by
  simp [Resize, if_neg h1, if_pos h2]

theorem Resize_inplace_data (v : SimpleVector α) (n : Nat) (h1 : ¬ n ≤ v.size_)
    (h2 : n ≤ v.capacity_) :
    (Resize v n).data_.raw = stdGenerateDefault v.data_.raw v.size_ (n - v.size_) := by
  simp [Resize, if_neg h1, if_pos h2]

theorem Resize_grow_size (v : SimpleVector α) (n : Nat) (h1 : ¬ n ≤ v.size_)
    (h2 : ¬ n ≤ v.capacity_) : (Resize v n).size_ = n := by
  simp [Resize, if_neg h1, if_neg h2]

theorem Resize_grow_capacity (v : SimpleVector α) (n : Nat) (h1 : ¬ n ≤ v.size_)
    (h2 : ¬ n ≤ v.capacity_) :
    (Resize v n).capacity_ = max n (v.capacity_ * 2) := by
  simp [Resize, if_neg h1, if_neg h2, IncreaseCapacity]

theorem Resize_grow_data (v : SimpleVector α) (n : Nat) (h1 : ¬ n ≤ v.size_)
    (h2 : ¬ n ≤ v.capacity_) :
    (Resize v n).data_.raw = (IncreaseCapacity v (max n (v.capacity_ * 2))).data_.raw := by
  simp [Resize, if_neg h1, if_neg h2]

/-- Case `n ≤ size`: the logical sequence is truncated to its first `n`
elements, the buffer and capacity are untouched. -/
theorem logicalList_Resize_shrink (v : SimpleVector α) (n : Nat) (h : n ≤ v.size_) :
    logicalList (Resize v n) = (logicalList v).take n := by
  rw [Resize_shrink v n h]
  simp only [logicalList]
  rw [List.take_take, min_eq_left h]

/-- Case `size < n ≤ capacity`: the first `size` elements are kept. -/
theorem logicalList_Resize_inplace_front (v : SimpleVector α) (n : Nat) (hWF : WF v)
    (h1 : ¬ n ≤ v.size_) (h2 : n ≤ v.capacity_) :
    (logicalList (Resize v n)).take v.size_ = logicalList v := by
  obtain ⟨hw1, hw2⟩ := hWF
  simp only [logicalList, Resize_inplace_data v n h1 h2, Resize_inplace_size v n h1 h2]
  rw [List.take_take, min_eq_left (by omega)]
  apply ext_getD _ _ default
  · simp [length_stdGenerateDefault]
  · intro j hj
    simp only [List.length_take, length_stdGenerateDefault] at hj
    rw [getD_take_eq_if, if_pos (by omega), getD_take_eq_if, if_pos (by omega),
      getD_stdGenerateDefault, if_neg (by omega)]

/-- Case `size < n ≤ capacity`: the newly exposed slots `[size, n)` hold the
default value. -/
theorem logicalList_Resize_inplace_tail (v : SimpleVector α) (n : Nat) (hWF : WF v)
    (h1 : ¬ n ≤ v.size_) (h2 : n ≤ v.capacity_) :
    (logicalList (Resize v n)).drop v.size_ =
      List.replicate (n - v.size_) default := by
  obtain ⟨hw1, hw2⟩ := hWF
  simp only [logicalList, Resize_inplace_data v n h1 h2, Resize_inplace_size v n h1 h2]
  apply ext_getD _ _ default
  · simp [length_stdGenerateDefault]
    omega
  · intro j hj
    simp only [List.length_drop, List.length_take, length_stdGenerateDefault] at hj
    rw [getD_drop_eq, getD_take_eq_if, if_pos (by omega), getD_stdGenerateDefault,
      if_pos (by omega), getD_replicate_eq_if, if_pos (by omega)]

theorem WF_Resize (v : SimpleVector α) (n : Nat) (hWF : WF v) : WF (Resize v n) := by
  obtain ⟨h1, h2⟩ := hWF
  by_cases hc1 : n ≤ v.size_
  · rw [Resize_shrink v n hc1]
    exact ⟨by simp; omega, by simpa using h2⟩
  · by_cases hc2 : n ≤ v.capacity_
    · constructor
      · rw [Resize_inplace_size v n hc1 hc2, Resize_inplace_capacity v n hc1 hc2]
        omega
      · rw [Resize_inplace_capacity v n hc1 hc2, Resize_inplace_data v n hc1 hc2,
          length_stdGenerateDefault]
        exact h2
    · constructor
      · rw [Resize_grow_size v n hc1 hc2, Resize_grow_capacity v n hc1 hc2]
        omega
      · rw [Resize_grow_capacity v n hc1 hc2, Resize_grow_data v n hc1 hc2,
          IncreaseCapacity_data]
        have hlen : (logicalList v).length = v.size_ := length_logicalList v (by omega)
        simp [hlen]
        omega

/-- Case `n > capacity`: the first `size` elements are preserved across the
reallocation. -/
theorem logicalList_Resize_grow_front (v : SimpleVector α) (n : Nat) (hWF : WF v)
    (h1 : ¬ n ≤ v.size_) (h2 : ¬ n ≤ v.capacity_) :
    (logicalList (Resize v n)).take v.size_ = logicalList v := by
  obtain ⟨hw1, hw2⟩ := hWF
  have hlen : (logicalList v).length = v.size_ := length_logicalList v (by omega)
  show (((Resize v n).data_.raw).take (Resize v n).size_).take v.size_ = logicalList v
  rw [Resize_grow_data v n h1 h2, Resize_grow_size v n h1 h2, IncreaseCapacity_data]
  rw [List.take_take, min_eq_left (by omega)]
  rw [List.take_append_of_le_length (by omega), List.take_of_length_le (le_of_eq hlen)]

/-- Case `n > capacity`: the newly exposed slots `[size, n)` of the freshly
allocated buffer hold the default value. -/
theorem logicalList_Resize_grow_tail (v : SimpleVector α) (n : Nat) (hWF : WF v)
    (h1 : ¬ n ≤ v.size_) (h2 : ¬ n ≤ v.capacity_) :
    (logicalList (Resize v n)).drop v.size_ = List.replicate (n - v.size_) default := by
  obtain ⟨hw1, hw2⟩ := hWF
  have hlen : (logicalList v).length = v.size_ := length_logicalList v (by omega)
  show (((Resize v n).data_.raw).take (Resize v n).size_).drop v.size_ = _
  rw [Resize_grow_data v n h1 h2, Resize_grow_size v n h1 h2, IncreaseCapacity_data]
  apply ext_getD _ _ default
  · simp only [List.length_drop, List.length_take, List.length_append,
      List.length_replicate, List.length_replicate, hlen]
    omega
  · intro j hj
    simp only [List.length_drop, List.length_take, List.length_append,
      List.length_replicate, hlen] at hj
    rw [getD_drop_eq, getD_take_eq_if, if_pos (by omega), getD_append_eq_if, hlen,
      if_neg (by omega), getD_replicate_eq_if, if_pos (by omega),
      getD_replicate_eq_if, if_pos (by omega)]

/-! ## `Reserve`, `Clear`, `PopBack`, `swap`, move, assignment -/

theorem Reserve_noop (v : SimpleVector α) (n : Nat) (h : ¬ n > v.capacity_) :
    Reserve v n = v := by
  simp [Reserve, if_neg h]

theorem Reserve_grow (v : SimpleVector α) (n : Nat) (h : n > v.capacity_) :
    Reserve v n = IncreaseCapacity v n := by
  simp [Reserve, if_pos h]

theorem WF_Reserve (v : SimpleVector α) (n : Nat) (hWF : WF v) : WF (Reserve v n) := by
  by_cases h : n > v.capacity_
  · rw [Reserve_grow v n h]
    exact WF_IncreaseCapacity v n hWF (le_trans hWF.1 (le_of_lt h))
  · rw [Reserve_noop v n h]
    exact hWF

theorem WF_Clear (v : SimpleVector α) (hWF : WF v) : WF (Clear v) :=
  ⟨by simp [Clear], hWF.2⟩

theorem logicalList_Clear (v : SimpleVector α) : logicalList (Clear v) = [] := by
  simp [Clear, logicalList]

theorem WF_PopBack (v : SimpleVector α) (hWF : WF v) : WF (PopBack v) := by
  obtain ⟨h1, h2⟩ := hWF
  exact ⟨by simp only [PopBack]; omega, h2⟩

theorem logicalList_PopBack (v : SimpleVector α) :
    logicalList (PopBack v) = (logicalList v).take (v.size_ - 1) := by
  simp only [PopBack, logicalList]
  rw [List.take_take, min_eq_left (by omega)]

theorem swap_eq (a b : SimpleVector α) : swap a b = (b, a) := rfl

theorem moveCtor_fst (v : SimpleVector α) : (moveCtor v).1 = v := rfl

theorem moveCtor_snd (v : SimpleVector α) : (moveCtor v).2 = mkEmpty α := rfl

theorem copyAssign_distinct (self rhs : SimpleVector α) :
    copyAssign self rhs false = copyCtor rhs := rfl

theorem copyAssign_self (v : SimpleVector α) : copyAssign v v true = v := rfl

theorem eqOp_eq_true_iff [DecidableEq α] (lhs rhs : SimpleVector α) :
    eqOp lhs rhs = true ↔
      (lhs.size_ = rhs.size_ ∧ logicalList lhs = rhs.data_.raw.take lhs.size_) := by
  unfold eqOp
  by_cases hs : lhs.size_ ≠ rhs.size_
  · simp [hs]
  · push_neg at hs
    simp [hs, logicalList]

/-- Removing slot `i` right after inserting `x` at slot `i` restores the
original sequence. -/
theorem insert_then_erase_list (l : List α) (i : Nat) (x : α) (hi : i ≤ l.length) :
    (l.take i ++ x :: l.drop i).take i ++ (l.take i ++ x :: l.drop i).drop (i + 1) = l := by
  have hA : (l.take i).length = i := by simp; omega
  have hd : (l.take i ++ x :: l.drop i).drop (i + 1) = l.drop i := by
    rw [show i + 1 = (l.take i).length + 1 from by rw [hA], List.drop_append]
    rfl
  have ht : (l.take i ++ x :: l.drop i).take i = l.take i := by
    rw [List.take_append_of_le_length (by omega), List.take_take, min_self]
  rw [hd, ht, List.take_append_drop]

end SimpleVector

/-! ## The claims -/

open SimpleVector

/-- Claim C1 (corrected).  For the statement `moved = std::move(original)` the
class's overload resolution selects the copy-assignment operator (no
move-assignment operator is declared), so `moved` receives a deep copy of
`original`'s logical sequence while `original` is left entirely unchanged —
it is **not** reset to size 0 / capacity 0.  Move-construction does transfer
ownership and resets the source to `size = capacity = 0`. -/
theorem C1_move_roundtrip (m o : SimpleVector Int) (h : WF o) :
    (logicalList (moveAssignStmt m o).1 = logicalList o ∧
     (moveAssignStmt m o).2 = o) ∧
    (logicalList (moveCtor o).1 = logicalList o ∧
     (moveCtor o).1.GetSize = o.GetSize ∧
     (moveCtor o).1.GetCapacity = o.GetCapacity ∧
     (moveCtor o).2.GetSize = 0 ∧
     (moveCtor o).2.GetCapacity = 0) := by
  refine ⟨⟨?_, rfl⟩, ⟨?_, rfl, rfl, rfl, rfl⟩⟩
  · show logicalList (copyAssign m o false) = logicalList o
    rw [copyAssign_distinct]
    exact logicalList_copyCtor o h
  · rw [moveCtor_fst]

theorem C1_move_roundtrip_witness :
    WF (PushBack (mkEmpty Int) 1) ∧
    ((logicalList (moveAssignStmt (mkEmpty Int) (PushBack (mkEmpty Int) 1)).1 =
        logicalList (PushBack (mkEmpty Int) 1) ∧
      (moveAssignStmt (mkEmpty Int) (PushBack (mkEmpty Int) 1)).2 =
        PushBack (mkEmpty Int) 1) ∧
     (logicalList (moveCtor (PushBack (mkEmpty Int) 1)).1 =
        logicalList (PushBack (mkEmpty Int) 1) ∧
      (moveCtor (PushBack (mkEmpty Int) 1)).1.GetSize =
        (PushBack (mkEmpty Int) 1).GetSize ∧
      (moveCtor (PushBack (mkEmpty Int) 1)).1.GetCapacity =
        (PushBack (mkEmpty Int) 1).GetCapacity ∧
      (moveCtor (PushBack (mkEmpty Int) 1)).2.GetSize = 0 ∧
      (moveCtor (PushBack (mkEmpty Int) 1)).2.GetCapacity = 0)) :=
  ⟨by decide, C1_move_roundtrip (mkEmpty Int) (PushBack (mkEmpty Int) 1) (by decide)⟩

/-- Claim C1, counterexample to the frozen statement: for the one-element
vector `original = [1]`, after `moved = std::move(original)` the source still
has size 1 and capacity 1, refuting `original.Size() == 0 &&
original.Capacity() == 0`. -/
theorem C1_counterexample :
    ¬ ((moveAssignStmt (mkEmpty Int) (PushBack (mkEmpty Int) 1)).2.GetSize = 0 ∧
       (moveAssignStmt (mkEmpty Int) (PushBack (mkEmpty Int) 1)).2.GetCapacity = 0) := by
  decide

/-- Claim C2 (corrected).  `At` signals an `std::out_of_range` failure (a
catchable value in the embedding, not an abort) exactly when
`index >= GetSize()`, for empty and non-empty vectors alike, and in-range
`At` returns exactly the stored element; but the failure carries only the
fixed message `"Выход за пределы массива"` — it does not record the offending
index. -/
theorem C2_At_checked (v : SimpleVector Int) (i : Nat) (h : WF v) :
    (v.GetSize ≤ i →
      At v i = Except.error ⟨"Выход за пределы массива"⟩) ∧
    (i < v.GetSize →
      At v i = Except.ok ((logicalList v).getD i default)) := by
  constructor
  · intro hge
    simp only [At, GetSize] at hge ⊢
    rw [if_pos hge]
  · intro hlt
    simp only [At, GetSize] at hlt ⊢
    rw [if_neg (by omega), getD_logicalList v i hlt]

theorem C2_At_checked_witness :
    WF (PushBack (mkEmpty Int) 7) ∧
    (((PushBack (mkEmpty Int) 7).GetSize ≤ 0 →
       At (PushBack (mkEmpty Int) 7) 0 = Except.error ⟨"Выход за пределы массива"⟩) ∧
     (0 < (PushBack (mkEmpty Int) 7).GetSize →
       At (PushBack (mkEmpty Int) 7) 0 =
         Except.ok ((logicalList (PushBack (mkEmpty Int) 7)).getD 0 default))) :=
  ⟨by decide, C2_At_checked (PushBack (mkEmpty Int) 7) 0 (by decide)⟩

/-- Claim C2, counterexample to "carries the offending index context": the
failures signalled at two different offending indices of the empty vector are
the very same value, so the failure does not determine the offending index. -/
theorem C2_counterexample :
    At (mkEmpty Int) 0 = At (mkEmpty Int) 5 ∧
    At (mkEmpty Int) 0 = Except.error ⟨"Выход за пределы массива"⟩ ∧
    (0 : Nat) ≠ 5 :=
  ⟨rfl, rfl, by decide⟩

/-- Claim C3 (confirmed).  `PushBack` grows the capacity to
`max(size + 1, capacity * 2)` exactly when `size == capacity` (so capacity 0
becomes exactly 1), appends the value at slot `size`, and increments the
size; after `k` pushes from the default-constructed vector the size is `k`,
the elements appear in insertion order, and the capacity is the least power
of two at least `k` (the sequence `1, 2, 4, 8, …`). -/
theorem C3_PushBack_growth (v : SimpleVector Int) (x : Int) (xs : List Int)
    (hWF : WF v) :
    ((v.GetSize = v.GetCapacity →
        (PushBack v x).GetCapacity = max (v.GetSize + 1) (v.GetCapacity * 2)) ∧
     (v.GetSize = 0 ∧ v.GetCapacity = 0 → (PushBack v x).GetCapacity = 1) ∧
     (v.GetSize < v.GetCapacity → (PushBack v x).GetCapacity = v.GetCapacity) ∧
     logicalList (PushBack v x) = logicalList v ++ [x] ∧
     (PushBack v x).GetSize = v.GetSize + 1) ∧
    ((pushMany (mkEmpty Int) xs).GetSize = xs.length ∧
     logicalList (pushMany (mkEmpty Int) xs) = xs ∧
     (xs ≠ [] → ∃ j, (pushMany (mkEmpty Int) xs).GetCapacity = 2 ^ j ∧
        xs.length ≤ 2 ^ j ∧ 2 ^ j < 2 * xs.length)) := by
  obtain ⟨hspec1, hspec2, hspec3, hspec4, hspec5⟩ := pushMany_mkEmpty_spec (α := Int) xs
  refine ⟨⟨?_, ?_, ?_, ?_, ?_⟩, hspec2, hspec3, hspec5⟩
  · intro he
    exact PushBack_capacity_grow v x (le_of_eq he.symm)
  · intro he
    show (PushBack v x).capacity_ = 1
    rw [PushBack_capacity_grow v x (by simp only [GetSize, GetCapacity] at he; omega)]
    simp only [GetSize, GetCapacity] at he
    omega
  · exact PushBack_capacity_headroom v x
  · exact logicalList_PushBack v x hWF
  · exact PushBack_size v x

theorem C3_PushBack_growth_witness :
    WF (PushBack (mkEmpty Int) 1) ∧
    ((((PushBack (mkEmpty Int) 1).GetSize = (PushBack (mkEmpty Int) 1).GetCapacity →
        (PushBack (PushBack (mkEmpty Int) 1) 2).GetCapacity =
          max ((PushBack (mkEmpty Int) 1).GetSize + 1)
            ((PushBack (mkEmpty Int) 1).GetCapacity * 2)) ∧
      ((PushBack (mkEmpty Int) 1).GetSize = 0 ∧
          (PushBack (mkEmpty Int) 1).GetCapacity = 0 →
        (PushBack (PushBack (mkEmpty Int) 1) 2).GetCapacity = 1) ∧
      ((PushBack (mkEmpty Int) 1).GetSize < (PushBack (mkEmpty Int) 1).GetCapacity →
        (PushBack (PushBack (mkEmpty Int) 1) 2).GetCapacity =
          (PushBack (mkEmpty Int) 1).GetCapacity) ∧
      logicalList (PushBack (PushBack (mkEmpty Int) 1) 2) =
        logicalList (PushBack (mkEmpty Int) 1) ++ [2] ∧
      (PushBack (PushBack (mkEmpty Int) 1) 2).GetSize =
        (PushBack (mkEmpty Int) 1).GetSize + 1) ∧
     ((pushMany (mkEmpty Int) [1, 2, 3]).GetSize = [1, 2, 3].length ∧
      logicalList (pushMany (mkEmpty Int) [(1 : Int), 2, 3]) = [1, 2, 3] ∧
      (([1, 2, 3] : List Int) ≠ [] →
        ∃ j, (pushMany (mkEmpty Int) [(1 : Int), 2, 3]).GetCapacity = 2 ^ j ∧
          [1, 2, 3].length ≤ 2 ^ j ∧ 2 ^ j < 2 * [1, 2, 3].length))) :=
  ⟨by decide, C3_PushBack_growth (PushBack (mkEmpty Int) 1) 2 [1, 2, 3] (by decide)⟩

/-- Claim C4 (confirmed).  `Insert` at offset `index ∈ [0, size]` produces
the original sequence with `value` at logical index `index` and the former
elements `[index, size)` shifted to `[index+1, size+1)`; the size increments
by 1 and the returned iterator designates the inserted slot.  In the
headroom case the backward shift (`copy_backward` with bound `end()+1`)
writes, among the spare slots `[size, capacity)`, exactly into the newly
available slot `size` — every slot strictly beyond `size` is untouched — and
the resulting logical sequence depends only on the old logical elements
`[0, size)` (the right-hand side of the sequence equation mentions nothing
past the old logical end). -/
theorem C4_Insert_spec (v : SimpleVector Int) (i : Nat) (x : Int)
    (hWF : WF v) (hi : i ≤ v.GetSize) :
    logicalList (Insert v i x).1 =
      (logicalList v).take i ++ x :: (logicalList v).drop i ∧
    (logicalList (Insert v i x).1).getD i default = x ∧
    (Insert v i x).1.GetSize = v.GetSize + 1 ∧
    (Insert v i x).2 = i ∧
    (v.GetSize < v.GetCapacity →
      ∀ j, v.GetSize < j →
        (Insert v i x).1.data_.raw.getD j default = v.data_.raw.getD j default) := by
  simp only [GetSize, GetCapacity] at hi ⊢
  have hlen : (logicalList v).length = v.size_ :=
    length_logicalList v (by rw [hWF.2]; exact hWF.1)
  have hmain := logicalList_Insert v i x hWF hi
  refine ⟨hmain, ?_, Insert_size v i x, Insert_ret v i x, ?_⟩
  · rw [hmain, getD_append_eq_if]
    have hA : ((logicalList v).take i).length = i := by simp; omega
    rw [hA, if_neg (by omega)]
    simp
  · intro hg j hj
    exact Insert_tail_slots v i x hWF hi hg j hj

theorem C4_Insert_spec_witness :
    WF (mkInitList [(1 : Int), 2, 3]) ∧ 1 ≤ (mkInitList [(1 : Int), 2, 3]).GetSize ∧
    (logicalList (Insert (mkInitList [(1 : Int), 2, 3]) 1 9).1 =
       (logicalList (mkInitList [(1 : Int), 2, 3])).take 1 ++
         9 :: (logicalList (mkInitList [(1 : Int), 2, 3])).drop 1 ∧
     (logicalList (Insert (mkInitList [(1 : Int), 2, 3]) 1 9).1).getD 1 default = 9 ∧
     (Insert (mkInitList [(1 : Int), 2, 3]) 1 9).1.GetSize =
       (mkInitList [(1 : Int), 2, 3]).GetSize + 1 ∧
     (Insert (mkInitList [(1 : Int), 2, 3]) 1 9).2 = 1 ∧
     ((mkInitList [(1 : Int), 2, 3]).GetSize < (mkInitList [(1 : Int), 2, 3]).GetCapacity →
       ∀ j, (mkInitList [(1 : Int), 2, 3]).GetSize < j →
         (Insert (mkInitList [(1 : Int), 2, 3]) 1 9).1.data_.raw.getD j default =
           (mkInitList [(1 : Int), 2, 3]).data_.raw.getD j default)) :=
  ⟨by decide, by decide,
    C4_Insert_spec (mkInitList [(1 : Int), 2, 3]) 1 9 (by decide) (by decide)⟩

/-- Claim C5 (confirmed).  `Erase` at offset `index ∈ [0, size)` shifts the
elements `[index+1, size)` one slot leftward into `[index, size-1)`,
decrements the size, leaves the prefix `[0, index)` and the capacity
unchanged, and returns the offset of the slot that now holds the element
that followed the erased one (which is the new end when the erased element
was last). -/
theorem C5_Erase_spec (v : SimpleVector Int) (i : Nat) (hWF : WF v)
    (hi : i < v.GetSize) :
    logicalList (Erase v i).1 =
      (logicalList v).take i ++ (logicalList v).drop (i + 1) ∧
    (Erase v i).1.GetSize = v.GetSize - 1 ∧
    (Erase v i).1.GetCapacity = v.GetCapacity ∧
    (logicalList (Erase v i).1).take i = (logicalList v).take i ∧
    (Erase v i).2 = i ∧
    (i + 1 < v.GetSize →
      (logicalList (Erase v i).1).getD i default =
        (logicalList v).getD (i + 1) default) ∧
    (i + 1 = v.GetSize → (Erase v i).2 = (Erase v i).1.GetSize) := by
  simp only [GetSize, GetCapacity] at hi ⊢
  have hlen : (logicalList v).length = v.size_ :=
    length_logicalList v (by rw [hWF.2]; exact hWF.1)
  have hmain := logicalList_Erase v i hWF hi
  have hA : ((logicalList v).take i).length = i := by simp; omega
  refine ⟨hmain, Erase_size v i, Erase_capacity v i, ?_, Erase_ret v i, ?_, ?_⟩
  · rw [hmain, List.take_append_of_le_length (by omega), List.take_take, min_self]
  · intro hlt
    rw [hmain, getD_append_eq_if, hA, if_neg (by omega), getD_drop_eq]
    congr 1
    omega
  · intro hle
    rw [Erase_ret, Erase_size]
    omega

theorem C5_Erase_spec_witness :
    WF (mkInitList [(5 : Int), 6, 7]) ∧ 1 < (mkInitList [(5 : Int), 6, 7]).GetSize ∧
    (logicalList (Erase (mkInitList [(5 : Int), 6, 7]) 1).1 =
       (logicalList (mkInitList [(5 : Int), 6, 7])).take 1 ++
         (logicalList (mkInitList [(5 : Int), 6, 7])).drop 2 ∧
     (Erase (mkInitList [(5 : Int), 6, 7]) 1).1.GetSize =
       (mkInitList [(5 : Int), 6, 7]).GetSize - 1 ∧
     (Erase (mkInitList [(5 : Int), 6, 7]) 1).1.GetCapacity =
       (mkInitList [(5 : Int), 6, 7]).GetCapacity ∧
     (logicalList (Erase (mkInitList [(5 : Int), 6, 7]) 1).1).take 1 =
       (logicalList (mkInitList [(5 : Int), 6, 7])).take 1 ∧
     (Erase (mkInitList [(5 : Int), 6, 7]) 1).2 = 1 ∧
     (1 + 1 < (mkInitList [(5 : Int), 6, 7]).GetSize →
       (logicalList (Erase (mkInitList [(5 : Int), 6, 7]) 1).1).getD 1 default =
         (logicalList (mkInitList [(5 : Int), 6, 7])).getD 2 default) ∧
     (1 + 1 = (mkInitList [(5 : Int), 6, 7]).GetSize →
       (Erase (mkInitList [(5 : Int), 6, 7]) 1).2 =
         (Erase (mkInitList [(5 : Int), 6, 7]) 1).1.GetSize)) :=
  ⟨by decide, by decide, C5_Erase_spec (mkInitList [(5 : Int), 6, 7]) 1 (by decide) (by decide)⟩

/-- Claim C6 (confirmed).  For every valid insertion index (`0 ≤ index ≤
size`) and every value, inserting at `index` and then erasing at `index`
restores the original logical sequence. -/
theorem C6_insert_erase_inverse (v : SimpleVector Int) (i : Nat) (x : Int)
    (hWF : WF v) (hi : i ≤ v.GetSize) :
    logicalList (Erase (Insert v i x).1 i).1 = logicalList v := by
  simp only [GetSize] at hi
  have hlen : (logicalList v).length = v.size_ :=
    length_logicalList v (by rw [hWF.2]; exact hWF.1)
  have hWFi := WF_Insert v i x hWF hi
  have hsz : (Insert v i x).1.size_ = v.size_ + 1 := Insert_size v i x
  have herase := logicalList_Erase (Insert v i x).1 i hWFi (by omega)
  rw [herase, logicalList_Insert v i x hWF hi]
  exact insert_then_erase_list (logicalList v) i x (by omega)

theorem C6_insert_erase_inverse_witness :
    WF (mkInitList [(1 : Int), 2]) ∧ 1 ≤ (mkInitList [(1 : Int), 2]).GetSize ∧
    logicalList (Erase (Insert (mkInitList [(1 : Int), 2]) 1 9).1 1).1 =
      logicalList (mkInitList [(1 : Int), 2]) :=
  ⟨by decide, by decide, C6_insert_erase_inverse (mkInitList [(1 : Int), 2]) 1 9
    (by decide) (by decide)⟩

/-- Claim C7 (confirmed).  `Resize(n)` follows exactly three cases: for
`n ≤ size` only the size shrinks to `n` (capacity and the first `n` elements
unchanged); for `size < n ≤ capacity` the capacity is kept, the first `size`
elements are kept, and slots `[size, n)` are default-value-filled; for
`n > capacity` the capacity becomes exactly `max(n, capacity * 2)`, the first
`size` elements are preserved, the size becomes `n`, and the newly exposed
tail `[size, n)` holds default values (the fresh buffer is allocated
default-initialized). -/
theorem C7_Resize_cases (v : SimpleVector Int) (n : Nat) (hWF : WF v) :
    (n ≤ v.GetSize →
      (Resize v n).GetSize = n ∧
      (Resize v n).GetCapacity = v.GetCapacity ∧
      logicalList (Resize v n) = (logicalList v).take n) ∧
    (v.GetSize < n → n ≤ v.GetCapacity →
      (Resize v n).GetSize = n ∧
      (Resize v n).GetCapacity = v.GetCapacity ∧
      (logicalList (Resize v n)).take v.GetSize = logicalList v ∧
      (logicalList (Resize v n)).drop v.GetSize =
        List.replicate (n - v.GetSize) default) ∧
    (v.GetCapacity < n →
      (Resize v n).GetSize = n ∧
      (Resize v n).GetCapacity = max n (v.GetCapacity * 2) ∧
      (logicalList (Resize v n)).take v.GetSize = logicalList v ∧
      (logicalList (Resize v n)).drop v.GetSize =
        List.replicate (n - v.GetSize) default) := by
  simp only [GetSize, GetCapacity]
  refine ⟨fun h1 => ?_, fun h1 h2 => ?_, fun h1 => ?_⟩
  · exact ⟨by rw [Resize_shrink v n h1], by rw [Resize_shrink v n h1],
      logicalList_Resize_shrink v n h1⟩
  · exact ⟨Resize_inplace_size v n (by omega) h2,
      Resize_inplace_capacity v n (by omega) h2,
      logicalList_Resize_inplace_front v n hWF (by omega) h2,
      logicalList_Resize_inplace_tail v n hWF (by omega) h2⟩
  · have h0 : ¬ n ≤ v.size_ := by
      obtain ⟨hw1, hw2⟩ := hWF
      omega
    exact ⟨Resize_grow_size v n h0 (by omega),
      Resize_grow_capacity v n h0 (by omega),
      logicalList_Resize_grow_front v n hWF h0 (by omega),
      logicalList_Resize_grow_tail v n hWF h0 (by omega)⟩

theorem C7_Resize_cases_witness :
    WF (mkInitList [(1 : Int), 2, 3]) ∧
    ((5 ≤ (mkInitList [(1 : Int), 2, 3]).GetSize →
       (Resize (mkInitList [(1 : Int), 2, 3]) 5).GetSize = 5 ∧
       (Resize (mkInitList [(1 : Int), 2, 3]) 5).GetCapacity =
         (mkInitList [(1 : Int), 2, 3]).GetCapacity ∧
       logicalList (Resize (mkInitList [(1 : Int), 2, 3]) 5) =
         (logicalList (mkInitList [(1 : Int), 2, 3])).take 5) ∧
     ((mkInitList [(1 : Int), 2, 3]).GetSize < 5 →
       5 ≤ (mkInitList [(1 : Int), 2, 3]).GetCapacity →
       (Resize (mkInitList [(1 : Int), 2, 3]) 5).GetSize = 5 ∧
       (Resize (mkInitList [(1 : Int), 2, 3]) 5).GetCapacity =
         (mkInitList [(1 : Int), 2, 3]).GetCapacity ∧
       (logicalList (Resize (mkInitList [(1 : Int), 2, 3]) 5)).take
           (mkInitList [(1 : Int), 2, 3]).GetSize =
         logicalList (mkInitList [(1 : Int), 2, 3]) ∧
       (logicalList (Resize (mkInitList [(1 : Int), 2, 3]) 5)).drop
           (mkInitList [(1 : Int), 2, 3]).GetSize =
         List.replicate (5 - (mkInitList [(1 : Int), 2, 3]).GetSize) default) ∧
     ((mkInitList [(1 : Int), 2, 3]).GetCapacity < 5 →
       (Resize (mkInitList [(1 : Int), 2, 3]) 5).GetSize = 5 ∧
       (Resize (mkInitList [(1 : Int), 2, 3]) 5).GetCapacity =
         max 5 ((mkInitList [(1 : Int), 2, 3]).GetCapacity * 2) ∧
       (logicalList (Resize (mkInitList [(1 : Int), 2, 3]) 5)).take
           (mkInitList [(1 : Int), 2, 3]).GetSize =
         logicalList (mkInitList [(1 : Int), 2, 3]) ∧
       (logicalList (Resize (mkInitList [(1 : Int), 2, 3]) 5)).drop
           (mkInitList [(1 : Int), 2, 3]).GetSize =
         List.replicate (5 - (mkInitList [(1 : Int), 2, 3]).GetSize) default)) :=
  ⟨by decide, C7_Resize_cases (mkInitList [(1 : Int), 2, 3]) 5 (by decide)⟩

/-- Claim C8 (confirmed).  A copy-constructed vector compares equal to its
source under `operator==`, its capacity is exactly the source's logical size
(excess capacity is not preserved), and the copy's entire state is built from
a fresh buffer holding only the source's logical elements — the copy is a
function of the source's logical sequence alone, so no mutation of the copy
can be observed through the original (deep-copy isolation; in this pure
embedding distinct values share no storage by construction). -/
theorem C8_copy_deep (v : SimpleVector Int) (hWF : WF v) :
    eqOp (copyCtor v) v = true ∧
    (copyCtor v).GetCapacity = v.GetSize ∧
    (copyCtor v).GetSize = v.GetSize ∧
    logicalList (copyCtor v) = logicalList v ∧
    (∀ w : SimpleVector Int, w.GetSize = v.GetSize →
      logicalList w = logicalList v → copyCtor w = copyCtor v) := by
  have hlog := logicalList_copyCtor v hWF
  refine ⟨?_, rfl, rfl, hlog, ?_⟩
  · rw [eqOp_eq_true_iff]
    refine ⟨copyCtor_size v, ?_⟩
    rw [hlog]
    show logicalList v = v.data_.raw.take (copyCtor v).size_
    rw [copyCtor_size]
    rfl
  · intro w h1 h2
    simp only [GetSize] at h1
    show (swap (mkEmpty Int) _).1 = (swap (mkEmpty Int) _).1
    rw [swap_eq, swap_eq]
    simp only [mkSized, h1, h2]

theorem C8_copy_deep_witness :
    WF (PushBack (PushBack (PushBack (mkEmpty Int) 1) 2) 3) ∧
    (eqOp (copyCtor (PushBack (PushBack (PushBack (mkEmpty Int) 1) 2) 3))
       (PushBack (PushBack (PushBack (mkEmpty Int) 1) 2) 3) = true ∧
     (copyCtor (PushBack (PushBack (PushBack (mkEmpty Int) 1) 2) 3)).GetCapacity =
       (PushBack (PushBack (PushBack (mkEmpty Int) 1) 2) 3).GetSize ∧
     (copyCtor (PushBack (PushBack (PushBack (mkEmpty Int) 1) 2) 3)).GetSize =
       (PushBack (PushBack (PushBack (mkEmpty Int) 1) 2) 3).GetSize ∧
     logicalList (copyCtor (PushBack (PushBack (PushBack (mkEmpty Int) 1) 2) 3)) =
       logicalList (PushBack (PushBack (PushBack (mkEmpty Int) 1) 2) 3) ∧
     (∀ w : SimpleVector Int,
       w.GetSize = (PushBack (PushBack (PushBack (mkEmpty Int) 1) 2) 3).GetSize →
       logicalList w = logicalList (PushBack (PushBack (PushBack (mkEmpty Int) 1) 2) 3) →
       copyCtor w = copyCtor (PushBack (PushBack (PushBack (mkEmpty Int) 1) 2) 3))) :=
  ⟨by decide, C8_copy_deep (PushBack (PushBack (PushBack (mkEmpty Int) 1) 2) 3) (by decide)⟩

/-- Claim C9 (confirmed).  Every operation of the vector — all constructor
variants, copy, move, assignment, `PushBack`, `PopBack`, `Insert`, `Erase`,
`Resize`, `Reserve`, `Clear` and `swap` — preserves the representation
invariant `size_ ≤ capacity_` (with the buffer holding exactly `capacity_`
slots), and under that invariant the user-visible sequence is exactly the
`size_` elements at logical indices `[0, size_)`. -/
theorem C9_invariant_preservation (v w : SimpleVector Int) (x : Int)
    (xs : List Int) (n i j c k : Nat) (b : Bool)
    (hv : WF v) (hw : WF w) (hi : i ≤ v.GetSize) (hj : j < v.GetSize) :
    WF (mkEmpty Int) ∧
    WF (mkReserve Int c) ∧
    WF (mkSizedVal k x) ∧
    WF (mkSized Int k) ∧
    WF (mkInitList xs) ∧
    WF (copyCtor v) ∧
    WF (moveCtor v).1 ∧
    WF (moveCtor v).2 ∧
    WF (copyAssign v w b) ∧
    WF (moveAssignStmt v w).1 ∧
    WF (PushBack v x) ∧
    WF (PopBack v) ∧
    WF (Insert v i x).1 ∧
    WF (Erase v j).1 ∧
    WF (Resize v n) ∧
    WF (Reserve v n) ∧
    WF (Clear v) ∧
    WF (swap v w).1 ∧
    WF (swap v w).2 ∧
    (logicalList v).length = v.GetSize := by
  simp only [GetSize] at hi hj ⊢
  refine ⟨WF_mkEmpty, WF_mkReserve c, WF_mkSizedVal k x, WF_mkSizedVal k default,
    WF_mkInitList xs, WF_copyCtor v hv, ?_, ?_, ?_, ?_,
    WF_PushBack v x hv, WF_PopBack v hv, WF_Insert v i x hv hi, WF_Erase v j hv,
    WF_Resize v n hv, WF_Reserve v n hv, WF_Clear v hv, ?_, ?_,
    length_logicalList v (by rw [hv.2]; exact hv.1)⟩
  · rw [moveCtor_fst]
    exact hv
  · rw [moveCtor_snd]
    exact WF_mkEmpty
  · cases b
    · rw [copyAssign_distinct]
      exact WF_copyCtor w hw
    · exact hv
  · show WF (copyAssign v w false)
    rw [copyAssign_distinct]
    exact WF_copyCtor w hw
  · rw [swap_eq]
    exact hw
  · rw [swap_eq]
    exact hv

theorem C9_invariant_preservation_witness :
    WF (mkInitList [(1 : Int), 2]) ∧ WF (PushBack (mkEmpty Int) 4) ∧
    1 ≤ (mkInitList [(1 : Int), 2]).GetSize ∧ 0 < (mkInitList [(1 : Int), 2]).GetSize ∧
    (WF (mkEmpty Int) ∧
     WF (mkReserve Int 3) ∧
     WF (mkSizedVal 2 (7 : Int)) ∧
     WF (mkSized Int 2) ∧
     WF (mkInitList [(8 : Int)]) ∧
     WF (copyCtor (mkInitList [(1 : Int), 2])) ∧
     WF (moveCtor (mkInitList [(1 : Int), 2])).1 ∧
     WF (moveCtor (mkInitList [(1 : Int), 2])).2 ∧
     WF (copyAssign (mkInitList [(1 : Int), 2]) (PushBack (mkEmpty Int) 4) true) ∧
     WF (moveAssignStmt (mkInitList [(1 : Int), 2]) (PushBack (mkEmpty Int) 4)).1 ∧
     WF (PushBack (mkInitList [(1 : Int), 2]) 7) ∧
     WF (PopBack (mkInitList [(1 : Int), 2])) ∧
     WF (Insert (mkInitList [(1 : Int), 2]) 1 7).1 ∧
     WF (Erase (mkInitList [(1 : Int), 2]) 0).1 ∧
     WF (Resize (mkInitList [(1 : Int), 2]) 5) ∧
     WF (Reserve (mkInitList [(1 : Int), 2]) 5) ∧
     WF (Clear (mkInitList [(1 : Int), 2])) ∧
     WF (swap (mkInitList [(1 : Int), 2]) (PushBack (mkEmpty Int) 4)).1 ∧
     WF (swap (mkInitList [(1 : Int), 2]) (PushBack (mkEmpty Int) 4)).2 ∧
     (logicalList (mkInitList [(1 : Int), 2])).length =
       (mkInitList [(1 : Int), 2]).GetSize) :=
  ⟨by decide, by decide, by decide, by decide,
    C9_invariant_preservation (mkInitList [(1 : Int), 2]) (PushBack (mkEmpty Int) 4)
      7 [8] 5 1 0 3 2 true (by decide) (by decide) (by decide) (by decide)⟩

/-- Claim C10 (confirmed).  Self-assignment is a guaranteed no-op: the
identity check `this != &rhs` in `operator=` returns the object untouched, so
`v = v` leaves the size, the capacity, and the logical sequence (indeed the
whole state) exactly unchanged. -/
theorem C10_self_assign (v : SimpleVector Int) :
    copyAssign v v true = v ∧
    (copyAssign v v true).GetSize = v.GetSize ∧
    (copyAssign v v true).GetCapacity = v.GetCapacity ∧
    logicalList (copyAssign v v true) = logicalList v :=
  ⟨rfl, rfl, rfl, rfl⟩

end SimpleVectorSpec
